import Mathlib

/-!
Verification of the mind-map tree engine of `src/src/components/Canvas.tsx`
(data model from `src/src/types.ts`, root creation from `src/src/App.tsx`).

Numbers (JavaScript doubles) are embedded as exact rationals `ℚ`: every
operation the layout performs (+, −, ×, /2, /1.1) is exact on the values
involved, so `ℚ` is a faithful model of the arithmetic.
-/

namespace MindMap

/-! ## Layout constants (`NODE_SPACING` in Canvas.tsx, lines 31–36) -/

def HORIZONTAL : ℚ := 120
def VERTICAL : ℚ := 200
def NODE_WIDTH : ℚ := 160
def NODE_HEIGHT : ℚ := 80

/-- Half gap `NODE_SPACING.HORIZONTAL / 2`, the inter-sibling spacing used throughout
the layout code. -/
def HALF_GAP : ℚ := HORIZONTAL / 2

/-- JavaScript's `String.prototype.trim()`: strip leading and trailing
whitespace (kept as an explicit list-of-characters computation so that the
kernel can evaluate it on literals). -/
def jsTrim (s : String) : String :=
  ⟨((s.data.dropWhile Char.isWhitespace).reverse.dropWhile Char.isWhitespace).reverse⟩

/-! ## Data model (`NodeData` in types.ts) -/

/-- The `NodeData` interface of `src/src/types.ts`: id, display text, ordered
children, optional layout coordinates, collapse flag, and the opaque style
fields (`shape`, `colorScheme`, `description`).  A JavaScript `undefined`
coordinate is `none`; a missing `isCollapsed` is `false`. -/
inductive NodeData : Type where
  | mk (id : String) (text : String) (children : List NodeData)
       (x : Option ℚ) (y : Option ℚ) (isCollapsed : Bool)
       (shape : Option String) (colorScheme : Option String)
       (description : Option String)

namespace NodeData

def id : NodeData → String
  | .mk i _ _ _ _ _ _ _ _ => i

def text : NodeData → String
  | .mk _ t _ _ _ _ _ _ _ => t

def children : NodeData → List NodeData
  | .mk _ _ ch _ _ _ _ _ _ => ch

def x : NodeData → Option ℚ
  | .mk _ _ _ px _ _ _ _ _ => px

def y : NodeData → Option ℚ
  | .mk _ _ _ _ py _ _ _ _ => py

def isCollapsed : NodeData → Bool
  | .mk _ _ _ _ _ c _ _ _ => c

def shape : NodeData → Option String
  | .mk _ _ _ _ _ _ sh _ _ => sh

def colorScheme : NodeData → Option String
  | .mk _ _ _ _ _ _ _ cs _ => cs

def description : NodeData → Option String
  | .mk _ _ _ _ _ _ _ _ d => d

@[simp] theorem id_mk (i t ch px py c sh cs d) :
    (NodeData.mk i t ch px py c sh cs d).id = i := rfl

@[simp] theorem text_mk (i t ch px py c sh cs d) :
    (NodeData.mk i t ch px py c sh cs d).text = t := rfl

@[simp] theorem children_mk (i t ch px py c sh cs d) :
    (NodeData.mk i t ch px py c sh cs d).children = ch := rfl

@[simp] theorem x_mk (i t ch px py c sh cs d) :
    (NodeData.mk i t ch px py c sh cs d).x = px := rfl

@[simp] theorem y_mk (i t ch px py c sh cs d) :
    (NodeData.mk i t ch px py c sh cs d).y = py := rfl

@[simp] theorem isCollapsed_mk (i t ch px py c sh cs d) :
    (NodeData.mk i t ch px py c sh cs d).isCollapsed = c := rfl

@[simp] theorem shape_mk (i t ch px py c sh cs d) :
    (NodeData.mk i t ch px py c sh cs d).shape = sh := rfl

@[simp] theorem colorScheme_mk (i t ch px py c sh cs d) :
    (NodeData.mk i t ch px py c sh cs d).colorScheme = cs := rfl

@[simp] theorem description_mk (i t ch px py c sh cs d) :
    (NodeData.mk i t ch px py c sh cs d).description = d := rfl

end NodeData

/-- Structural induction for the nested inductive `NodeData`: to prove `P n`
for every node it is enough to prove it for a node assuming it for all of the
node's children. -/
theorem NodeData.inductionOn {P : NodeData → Prop}
    (step : ∀ i t ch px py c sh cs d,
      (∀ u ∈ ch, P u) → P (NodeData.mk i t ch px py c sh cs d)) :
    ∀ n, P n := by
  have H : ∀ k (m : NodeData), sizeOf m ≤ k → P m := by
    intro k
    induction k with
    | zero =>
      intro m hm
      cases m with
      | mk i t ch px py c sh cs d => simp at hm
    | succ k ih =>
      intro m hm
      cases m with
      | mk i t ch px py c sh cs d =>
        apply step
        intro u hu
        apply ih
        have h1 := List.sizeOf_lt_of_mem hu
        simp at hm
        omega
  intro n
  exact H (sizeOf n) n le_rfl

/-! ## Width pass (`calculateSubtreeWidth`, Canvas.tsx lines 97–122) -/

/-- Embeds `calculateSubtreeWidth` from Canvas.tsx: a collapsed or childless node
contributes `NODE_WIDTH + HORIZONTAL/2`; otherwise the children's subtree
widths are summed, `(childCount − 1) · HORIZONTAL/2` inter-child spacing is
added, and the result is the max of that and the node's own footprint. -/
def calculateSubtreeWidth : NodeData → ℚ
  | .mk _ _ ch _ _ c _ _ _ =>
    if c || ch.isEmpty then
      NODE_WIDTH + HALF_GAP
    else
      let ws := ch.attach.map (fun u => calculateSubtreeWidth u.1)
      max (NODE_WIDTH + HALF_GAP) (ws.sum + ((ch.length - 1 : ℕ) : ℚ) * HALF_GAP)
termination_by n => sizeOf n
decreasing_by
  simp_wf
  have h1 := List.sizeOf_lt_of_mem u.2
  omega

theorem calculateSubtreeWidth_mk (i t ch px py c sh cs d) :
    calculateSubtreeWidth (.mk i t ch px py c sh cs d) =
      if c || ch.isEmpty then NODE_WIDTH + HALF_GAP
      else max (NODE_WIDTH + HALF_GAP)
        ((ch.map calculateSubtreeWidth).sum + ((ch.length - 1 : ℕ) : ℚ) * HALF_GAP) := by
  rw [calculateSubtreeWidth]
  simp [List.attach_map_coe]

/-! ## Position pass (`positionNodes`, Canvas.tsx lines 125–159) -/

mutual

/-- Embeds `positionNodes` from Canvas.tsx: assigns the anchor `(x, y)` to the node;
if the node is collapsed or childless it stops (children keep their stored
coordinates); otherwise it lays the children out left to right starting at
`x − totalLayoutWidth/2`, one `VERTICAL` band below. -/
def positionNodes : NodeData → ℚ → ℚ → NodeData
  | .mk i t ch _ _ c sh cs d, px, py =>
    if c || ch.isEmpty then
      .mk i t ch (some px) (some py) c sh cs d
    else
      let total := (ch.attach.map (fun u => calculateSubtreeWidth u.1)).sum
        + ((ch.length - 1 : ℕ) : ℚ) * HALF_GAP
      .mk i t (positionChildren ch (px - total / 2) (py + VERTICAL))
        (some px) (some py) c sh cs d
termination_by n _ _ => sizeOf n

/-- The `validChildren.forEach` loop of `positionNodes`: each child is placed
at the center of its own subtree-width slice and the running x advances by
that width plus the half gap. -/
def positionChildren : List NodeData → ℚ → ℚ → List NodeData
  | [], _, _ => []
  | u :: us, curX, cy =>
    let w := calculateSubtreeWidth u
    positionNodes u (curX + w / 2) cy :: positionChildren us (curX + w + HALF_GAP) cy
termination_by l _ _ => sizeOf l

end

theorem positionNodes_mk (i t ch px py c sh cs d qx qy) :
    positionNodes (.mk i t ch px py c sh cs d) qx qy =
      if c || ch.isEmpty then NodeData.mk i t ch (some qx) (some qy) c sh cs d
      else
        NodeData.mk i t
          (positionChildren ch
            (qx - ((ch.map calculateSubtreeWidth).sum
              + ((ch.length - 1 : ℕ) : ℚ) * HALF_GAP) / 2)
            (qy + VERTICAL))
          (some qx) (some qy) c sh cs d := by
  rw [positionNodes]
  simp [List.attach_map_coe]

theorem positionChildren_nil (qx qy : ℚ) : positionChildren [] qx qy = [] := by
  rw [positionChildren]

theorem positionChildren_cons (u : NodeData) (us : List NodeData) (qx qy : ℚ) :
    positionChildren (u :: us) qx qy =
      positionNodes u (qx + calculateSubtreeWidth u / 2) qy ::
        positionChildren us (qx + calculateSubtreeWidth u + HALF_GAP) qy := by
  rw [positionChildren]

/-! ## Lookup (`findNodeById`, Canvas.tsx lines 71–84) -/

mutual

/-- Embeds `findNodeById` from Canvas.tsx: depth-first search over a list of
candidate roots, a node itself before its children, earlier list entries
before later ones; `none` when the id resolves nowhere. -/
def findNodeById (target : String) : List NodeData → Option NodeData
  | [] => none
  | u :: rest =>
    match findInNode target u with
    | some f => some f
    | none => findNodeById target rest

/-- One iteration of the `findNodeById` loop body: the node itself, then its
children. -/
def findInNode (target : String) : NodeData → Option NodeData
  | .mk i t ch px py c sh cs d =>
    if i = target then some (.mk i t ch px py c sh cs d)
    else findNodeById target ch

end

theorem findNodeById_nil (target : String) : findNodeById target [] = none := rfl

theorem findNodeById_cons (target : String) (n : NodeData) (rest : List NodeData) :
    findNodeById target (n :: rest) =
      if n.id = target then some n
      else
        match findNodeById target n.children with
        | some f => some f
        | none => findNodeById target rest := by
  cases n with
  | mk i t ch px py c sh cs d =>
    show (match findInNode target (.mk i t ch px py c sh cs d) with
      | some f => some f
      | none => findNodeById target rest) = _
    rw [findInNode]
    by_cases hi : i = target
    · rw [if_pos hi]
      simp only [NodeData.id_mk, if_pos hi]
    · rw [if_neg hi]
      simp only [NodeData.id_mk, NodeData.children_mk, if_neg hi]

/-! ## Collapse toggle (`handleCollapse`, Canvas.tsx lines 341–379) -/

mutual

/-- The `updateNode` closure of `handleCollapse`: flips `isCollapsed` on every
node whose id matches (without descending below a match), rebuilding the rest
of the tree unchanged. -/
def toggleCollapse (target : String) : NodeData → NodeData
  | .mk i t ch px py c sh cs d =>
    if i = target then .mk i t ch px py (!c) sh cs d
    else .mk i t (toggleChildren target ch) px py c sh cs d

/-- The `children.map(updateNode)` step of `handleCollapse`. -/
def toggleChildren (target : String) : List NodeData → List NodeData
  | [] => []
  | u :: us => toggleCollapse target u :: toggleChildren target us

end

theorem toggleChildren_eq (target : String) (cs : List NodeData) :
    toggleChildren target cs = cs.map (toggleCollapse target) := by
  induction cs with
  | nil => rfl
  | cons u us ih => rw [toggleChildren, List.map_cons, ih]

theorem toggleCollapse_mk (target i t ch px py c sh cs d) :
    toggleCollapse target (.mk i t ch px py c sh cs d) =
      if i = target then NodeData.mk i t ch px py (!c) sh cs d
      else NodeData.mk i t (ch.map (toggleCollapse target)) px py c sh cs d := by
  rw [toggleCollapse, toggleChildren_eq]

/-! ## Deletion (`handleDelete`, Canvas.tsx lines 381–428) -/

mutual

/-- The `deleteNode` closure of `handleDelete`: returns `none` when the node
itself is the target, otherwise drops any child whose id matches and recurses
into the remaining children. -/
def deleteNode (target : String) : NodeData → Option NodeData
  | .mk i t ch px py c sh cs d =>
    if i = target then none
    else some (.mk i t (deleteChildren target ch) px py c sh cs d)

/-- The `filter`/`map`/`filter` pipeline `handleDelete` applies to a children
list: drop direct matches, recurse into the rest, drop the nulls. -/
def deleteChildren (target : String) : List NodeData → List NodeData
  | [] => []
  | u :: us =>
    if u.id != target then
      match deleteNode target u with
      | some v => v :: deleteChildren target us
      | none => deleteChildren target us
    else deleteChildren target us

end

theorem deleteChildren_eq (target : String) (cs : List NodeData) :
    deleteChildren target cs
      = (cs.filter (fun u => u.id != target)).filterMap (deleteNode target) := by
  induction cs with
  | nil => rfl
  | cons u us ih =>
    rw [deleteChildren]
    by_cases hu : (u.id != target) = true
    · rw [if_pos hu]
      rw [List.filter_cons, if_pos hu, List.filterMap_cons, ih]
      cases deleteNode target u <;> rfl
    · rw [if_neg hu]
      rw [List.filter_cons, if_neg hu, ih]

theorem deleteNode_mk (target i t ch px py c sh cs d) :
    deleteNode target (.mk i t ch px py c sh cs d) =
      if i = target then none
      else
        some (NodeData.mk i t
          ((ch.filter (fun u => u.id != target)).filterMap (deleteNode target))
          px py c sh cs d) := by
  rw [deleteNode, deleteChildren_eq]

/-- Embeds `handleDelete` from Canvas.tsx: the early `return` when the target id is
the reserved root id `"root"` leaves the tree untouched; otherwise the
`deleteNode` closure runs (its `none` result would null the whole map, which
the `Option` codomain records). -/
def handleDelete (target : String) (t : NodeData) : Option NodeData :=
  if target = "root" then some t
  else deleteNode target t

/-! ## Manual insertion (`handleAddManualNode`, Canvas.tsx lines 436–502) -/

mutual

/-- The `updateNode` closure of `handleAddManualNode` (shared shape with the
batch inserter): appends `newNode` to the children of every node whose id
matches and clears that node's `isCollapsed`. -/
def insertNodeAt (parentId : String) (newNode : NodeData) : NodeData → NodeData
  | .mk i t ch px py c sh cs d =>
    if i = parentId then .mk i t (ch ++ [newNode]) px py false sh cs d
    else .mk i t (insertNodeAtChildren parentId newNode ch) px py c sh cs d

/-- The `children.map(updateNode)` step of `handleAddManualNode`. -/
def insertNodeAtChildren (parentId : String) (newNode : NodeData) :
    List NodeData → List NodeData
  | [] => []
  | u :: us => insertNodeAt parentId newNode u :: insertNodeAtChildren parentId newNode us

end

theorem insertNodeAtChildren_eq (parentId : String) (newNode : NodeData)
    (cs : List NodeData) :
    insertNodeAtChildren parentId newNode cs = cs.map (insertNodeAt parentId newNode) := by
  induction cs with
  | nil => rfl
  | cons u us ih => rw [insertNodeAtChildren, List.map_cons, ih]

theorem insertNodeAt_mk (parentId newNode i t ch px py c sh cs d) :
    insertNodeAt parentId newNode (.mk i t ch px py c sh cs d) =
      if i = parentId then NodeData.mk i t (ch ++ [newNode]) px py false sh cs d
      else NodeData.mk i t (ch.map (insertNodeAt parentId newNode)) px py c sh cs d := by
  rw [insertNodeAt, insertNodeAtChildren_eq]

/-- Embeds `handleAddManualNode` from Canvas.tsx: rejects empty-after-trim text, then
looks the parent up with `findNodeById` (no mutation when absent) and inserts
a fresh leaf whose text is the trimmed input, whose x starts at the parent's x
and whose y starts one `VERTICAL` band below the parent's y. -/
def handleAddManualNode (parentId newId txt : String) (sh cs : Option String)
    (t : NodeData) : NodeData :=
  if jsTrim txt = "" then t
  else
    match findNodeById parentId [t] with
    | none => t
    | some parent =>
      insertNodeAt parentId
        (.mk newId (jsTrim txt) [] parent.x (parent.y.map (· + VERTICAL)) false sh cs none) t

/-! ## Batch insertion (`handleGenerateAINodes`, Canvas.tsx lines 504–596) -/

/-- One generated child of `handleGenerateAINodes`: id built from the batch
stamp and the index in the filtered list, trimmed text, no children, not
collapsed, positioned near the parent, with the generic description. -/
def aiChildNode (mkId : ℕ → String) (sh cs : Option String) (px py : Option ℚ)
    (idx : ℕ) (topic : String) : NodeData :=
  .mk (mkId idx) (jsTrim topic) [] px (py.map (· + VERTICAL)) false sh cs
    (some ("Generated step/subtopic."))

mutual

/-- The `updateNode` closure of `handleGenerateAINodes`: at every node whose
id matches, filters out whitespace-only topics, appends one generated child
per surviving topic (indices taken in the filtered list) and clears the
node's `isCollapsed`. -/
def insertChildrenAt (parentId : String) (mkId : ℕ → String) (sh cs : Option String)
    (topics : List String) : NodeData → NodeData
  | .mk i t ch px py c sh0 cs0 d =>
    if i = parentId then
      .mk i t
        (ch ++ (topics.filter (fun s => jsTrim s != "")).enum.map
          (fun p => aiChildNode mkId sh cs px py p.1 p.2))
        px py false sh0 cs0 d
    else .mk i t (insertChildrenAtList parentId mkId sh cs topics ch) px py c sh0 cs0 d

/-- The `children.map(updateNode)` step of `handleGenerateAINodes`. -/
def insertChildrenAtList (parentId : String) (mkId : ℕ → String) (sh cs : Option String)
    (topics : List String) : List NodeData → List NodeData
  | [] => []
  | u :: us => insertChildrenAt parentId mkId sh cs topics u
      :: insertChildrenAtList parentId mkId sh cs topics us

end

theorem insertChildrenAtList_eq (parentId mkId sh cs topics) (l : List NodeData) :
    insertChildrenAtList parentId mkId sh cs topics l
      = l.map (insertChildrenAt parentId mkId sh cs topics) := by
  induction l with
  | nil => rfl
  | cons u us ih => rw [insertChildrenAtList, List.map_cons, ih]

theorem insertChildrenAt_mk (parentId mkId sh cs topics i t ch px py c sh0 cs0 d) :
    insertChildrenAt parentId mkId sh cs topics (.mk i t ch px py c sh0 cs0 d) =
      if i = parentId then
        NodeData.mk i t
          (ch ++ (topics.filter (fun s => jsTrim s != "")).enum.map
            (fun p => aiChildNode mkId sh cs px py p.1 p.2))
          px py false sh0 cs0 d
      else NodeData.mk i t (ch.map (insertChildrenAt parentId mkId sh cs topics))
        px py c sh0 cs0 d := by
  rw [insertChildrenAt, insertChildrenAtList_eq]

/-- Embeds `handleGenerateAINodes` from Canvas.tsx, tree part: the parent must
resolve via `findNodeById` (no mutation otherwise), then the `updateNode`
closure inserts the filtered batch. -/
def handleGenerateAINodes (parentId : String) (mkId : ℕ → String)
    (sh cs : Option String) (topics : List String) (t : NodeData) : NodeData :=
  match findNodeById parentId [t] with
  | none => t
  | some _ => insertChildrenAt parentId mkId sh cs topics t

/-! ## Derived shape observations used by the theorems -/

mutual

/-- Erase the `x`/`y` coordinates of every node, keeping everything else.
Two trees with equal `stripPos` images differ at most in coordinates. -/
def stripPos : NodeData → NodeData
  | .mk i t ch _ _ c sh cs d => .mk i t (stripPosList ch) none none c sh cs d

def stripPosList : List NodeData → List NodeData
  | [] => []
  | u :: us => stripPos u :: stripPosList us

end

theorem stripPosList_eq (cs : List NodeData) : stripPosList cs = cs.map stripPos := by
  induction cs with
  | nil => rfl
  | cons u us ih => rw [stripPosList, List.map_cons, ih]

theorem stripPos_mk (i t ch px py c sh cs d) :
    stripPos (.mk i t ch px py c sh cs d) =
      NodeData.mk i t (ch.map stripPos) none none c sh cs d := by
  rw [stripPos, stripPosList_eq]

mutual

/-- All ids of a tree, node before its descendants, children in order. -/
def allIds : NodeData → List String
  | .mk i _ ch _ _ _ _ _ _ => i :: allIdsList ch

def allIdsList : List NodeData → List String
  | [] => []
  | u :: us => allIds u ++ allIdsList us

end

theorem allIdsList_eq (cs : List NodeData) : allIdsList cs = (cs.map allIds).flatten := by
  induction cs with
  | nil => rfl
  | cons u us ih => rw [allIdsList, List.map_cons, List.flatten_cons, ih]

theorem allIds_mk (i t ch px py c sh cs d) :
    allIds (.mk i t ch px py c sh cs d) = i :: (ch.map allIds).flatten := by
  rw [allIds, allIdsList_eq]

mutual

/-- Clear `isCollapsed` on every node whose id matches, with exactly the
recursion shape of the insertion closures (no descent below a match). -/
def uncollapseAt (target : String) : NodeData → NodeData
  | .mk i t ch px py c sh cs d =>
    if i = target then .mk i t ch px py false sh cs d
    else .mk i t (uncollapseAtList target ch) px py c sh cs d

def uncollapseAtList (target : String) : List NodeData → List NodeData
  | [] => []
  | u :: us => uncollapseAt target u :: uncollapseAtList target us

end

theorem uncollapseAtList_eq (target : String) (cs : List NodeData) :
    uncollapseAtList target cs = cs.map (uncollapseAt target) := by
  induction cs with
  | nil => rfl
  | cons u us ih => rw [uncollapseAtList, List.map_cons, ih]

theorem uncollapseAt_mk (target i t ch px py c sh cs d) :
    uncollapseAt target (.mk i t ch px py c sh cs d) =
      if i = target then NodeData.mk i t ch px py false sh cs d
      else NodeData.mk i t (ch.map (uncollapseAt target)) px py c sh cs d := by
  rw [uncollapseAt, uncollapseAtList_eq]

mutual

/-- Common shape of the two insertion closures: at each node whose id
matches, append `F px py` to the children and clear `isCollapsed`; elsewhere
recurse.  `insertNodeAt` and `insertChildrenAt` are instances (lemmas below),
letting the id bookkeeping be proved once. -/
def appendAt (target : String) (F : Option ℚ → Option ℚ → List NodeData) : NodeData → NodeData
  | .mk i t ch px py c sh cs d =>
    if i = target then .mk i t (ch ++ F px py) px py false sh cs d
    else .mk i t (appendAtList target F ch) px py c sh cs d

def appendAtList (target : String) (F : Option ℚ → Option ℚ → List NodeData) :
    List NodeData → List NodeData
  | [] => []
  | u :: us => appendAt target F u :: appendAtList target F us

end

theorem appendAtList_eq (target F) (cs : List NodeData) :
    appendAtList target F cs = cs.map (appendAt target F) := by
  induction cs with
  | nil => rfl
  | cons u us ih => rw [appendAtList, List.map_cons, ih]

theorem appendAt_mk (target F i t ch px py c sh cs d) :
    appendAt target F (.mk i t ch px py c sh cs d) =
      if i = target then NodeData.mk i t (ch ++ F px py) px py false sh cs d
      else NodeData.mk i t (ch.map (appendAt target F)) px py c sh cs d := by
  rw [appendAt, appendAtList_eq]

/-! ## Horizontal spans and the non-overlap observation (spec §8) -/

/-- Left end of a sibling's horizontal span, `x − subtreeWidth/2`. -/
def spanLo (u : NodeData) : ℚ := u.x.getD 0 - calculateSubtreeWidth u / 2

/-- Right end of a sibling's horizontal span, `x + subtreeWidth/2`. -/
def spanHi (u : NodeData) : ℚ := u.x.getD 0 + calculateSubtreeWidth u / 2

/-- Every earlier sibling's span ends strictly before every later sibling's
span begins (which in particular means no two sibling spans overlap). -/
def sepB : List NodeData → Bool
  | [] => true
  | u :: us => us.all (fun v => decide (spanHi u < spanLo v)) && sepB us

/-- Sibling spans are separated at every node that is visible, i.e. not
hidden below a collapsed node; a collapsed node's (invisible) descendants are
not constrained. -/
def noOverlap : NodeData → Bool
  | .mk _ _ ch _ _ c _ _ _ =>
    c || (sepB ch && ch.attach.all (fun u => noOverlap u.1))
termination_by n => sizeOf n
decreasing_by
  simp_wf
  have h1 := List.sizeOf_lt_of_mem u.2
  omega

theorem noOverlap_mk (i t ch px py c sh cs d) :
    noOverlap (.mk i t ch px py c sh cs d) = (c || (sepB ch && ch.all noOverlap)) := by
  rw [noOverlap]
  congr 2
  rw [Bool.eq_iff_iff, List.all_eq_true, List.all_eq_true]
  constructor
  · intro h u hu
    exact h ⟨u, hu⟩ (List.mem_attach _ _)
  · intro h u _
    exact h u.1 u.2

/-- Total block width the position pass computes for a children list. -/
def totalChildrenWidth (ch : List NodeData) : ℚ :=
  (ch.map calculateSubtreeWidth).sum + ((ch.length - 1 : ℕ) : ℚ) * HALF_GAP

/-- How far the running x has advanced before the `k`-th child is placed. -/
def advanceBefore (ch : List NodeData) (k : ℕ) : ℚ :=
  ((ch.take k).map (fun u => calculateSubtreeWidth u + HALF_GAP)).sum

/-! ## Operation sequences (for the store invariant, spec §8) -/

/-- One user-level mutation, as dispatched by the Canvas handlers: a manual
add (`handleAddManualNode`, with the generated fresh id made explicit), an
AI batch add (`handleGenerateAINodes`, with the id generator explicit), or a
delete (`handleDelete`). -/
inductive Op : Type where
  | addManual (parentId newId txt : String) (sh cs : Option String)
  | addAI (parentId : String) (mkId : ℕ → String) (sh cs : Option String)
      (topics : List String)
  | del (target : String)

def applyOp : Op → NodeData → NodeData
  | .addManual p nid txt sh cs, t => handleAddManualNode p nid txt sh cs t
  | .addAI p mkId sh cs topics, t => handleGenerateAINodes p mkId sh cs topics t
  | .del target, t => (handleDelete target t).getD t

def applyOps (ops : List Op) (t : NodeData) : NodeData :=
  ops.foldl (fun acc op => applyOp op acc) t

/-- Validity of one operation on the current tree: inserted ids are fresh
(and pairwise distinct within an AI batch), a manual label is non-empty after
trimming, and the root is never the delete target. -/
def validOp (op : Op) (t : NodeData) : Bool :=
  match op with
  | .addManual _ nid txt _ _ => (jsTrim txt != "") && decide (nid ∉ allIds t)
  | .addAI _ mkId _ _ topics =>
      let ids := (List.range (topics.filter (fun s => jsTrim s != "")).length).map mkId
      decide ids.Nodup && ids.all (fun j => decide (j ∉ allIds t))
  | .del target => target != "root"

def validOps : List Op → NodeData → Bool
  | [], _ => true
  | op :: ops, t => validOp op t && validOps ops (applyOp op t)

/-- The freshly created root of `App.tsx` (`handleGenerateMap`): reserved id
`root`, the topic as text, no children, centered horizontally at `y = 100`. -/
def rootNode (topic : String) (winW : ℚ) : NodeData :=
  .mk ("root") topic [] (some (winW / 2)) (some 100) false none none none

/-- Node `u` is a strict descendant of `n`: reachable through at least one
parent-child step. -/
inductive StrictDesc : NodeData → NodeData → Prop where
  | head : ∀ u n, u ∈ n.children → StrictDesc u n
  | tail : ∀ u v n, u ∈ v.children → StrictDesc v n → StrictDesc u n

/-! ## Spec-modelled NodeStore deletion (for comparison with the code) -/

/-- The error taxonomy the spec gives `deleteSubtree` (spec §4.1, §7). -/
inductive StoreError : Type where
  | RootDeletionForbidden
  | NodeNotFound
deriving DecidableEq

/-- Modelled from the spec: `deleteSubtree(nodeId)` of §4.1 — "fails with
`RootDeletionForbidden` if `nodeId` is the root id; otherwise removes the
node and all descendants from its parent's children; fails with
`NodeNotFound` if `nodeId` does not resolve anywhere in the tree."  This
definition follows the spec's words; the code's behavior is `handleDelete`,
and the two are compared below. -/
def deleteSubtreeSpec (nodeId : String) (t : NodeData) : Except StoreError NodeData :=
  if nodeId = t.id then .error .RootDeletionForbidden
  else if (allIds t).contains nodeId then .ok ((deleteNode nodeId t).getD t)
  else .error .NodeNotFound

/-! ## Viewport (`handleWheel`, Canvas.tsx lines 242–265) -/

/-- A 2-D point (stage offset, pointer position, world coordinate). -/
structure Vec where
  vx : ℚ
  vy : ℚ
deriving DecidableEq, Repr

/-- The `mousePointTo` computation of `handleWheel`: the world point currently under screen
point `p` for stage offset `pos` and scale `s`, inverting
`screen = offset + world · scale`. -/
def worldUnder (pos : Vec) (s : ℚ) (p : Vec) : Vec :=
  ⟨(p.vx - pos.vx) / s, (p.vy - pos.vy) / s⟩

/-- The `scaleBy` constant of `handleWheel`. -/
def scaleBy : ℚ := 11 / 10

/-- Embeds `handleWheel` from Canvas.tsx: computes the world point under the pointer,
multiplies or divides the scale by `scaleBy` according to the wheel direction,
and recomputes the stage offset as `p − mousePointTo · newScale`. -/
def handleWheel (oldScale : ℚ) (pos p : Vec) (zoomIn : Bool) : ℚ × Vec :=
  let mousePointTo := worldUnder pos oldScale p
  let newScale := if zoomIn then oldScale * scaleBy else oldScale / scaleBy
  (newScale, ⟨p.vx - mousePointTo.vx * newScale, p.vy - mousePointTo.vy * newScale⟩)

/-! ## Basic lemmas -/

theorem HALF_GAP_pos : (0 : ℚ) < HALF_GAP := by
  norm_num [HALF_GAP, HORIZONTAL]

theorem footprint_pos : (0 : ℚ) < NODE_WIDTH + HALF_GAP := by
  norm_num [NODE_WIDTH, HALF_GAP, HORIZONTAL]

/-- Every subtree width is at least the single-node footprint. -/
theorem footprint_le_width (u : NodeData) :
    NODE_WIDTH + HALF_GAP ≤ calculateSubtreeWidth u := by
  cases u with
  | mk i t ch px py c sh cs d =>
    rw [calculateSubtreeWidth_mk]
    split
    · exact le_refl _
    · exact le_max_left _ _

theorem width_pos (u : NodeData) : 0 < calculateSubtreeWidth u :=
  lt_of_lt_of_le footprint_pos (footprint_le_width u)

/-- Both branches of the position pass store the anchor as the node's x. -/
theorem positionNodes_x (n : NodeData) (qx qy : ℚ) :
    (positionNodes n qx qy).x = some qx := by
  cases n with
  | mk i t ch px py c sh cs d =>
    rw [positionNodes_mk]
    split <;> rfl

/-- Both branches of the position pass store the anchor as the node's y. -/
theorem positionNodes_y (n : NodeData) (qx qy : ℚ) :
    (positionNodes n qx qy).y = some qy := by
  cases n with
  | mk i t ch px py c sh cs d =>
    rw [positionNodes_mk]
    split <;> rfl

theorem positionChildren_length (cs : List NodeData) :
    ∀ a b, (positionChildren cs a b).length = cs.length := by
  induction cs with
  | nil => intro a b; rw [positionChildren_nil]
  | cons u us ih =>
    intro a b
    rw [positionChildren_cons]
    simp [ih]

/-- List-level width preservation, assuming it for the list's members. -/
theorem widths_positionChildren (cs : List NodeData)
    (ih : ∀ u ∈ cs, ∀ qx qy,
      calculateSubtreeWidth (positionNodes u qx qy) = calculateSubtreeWidth u) :
    ∀ a b, (positionChildren cs a b).map calculateSubtreeWidth
      = cs.map calculateSubtreeWidth := by
  induction cs with
  | nil => intro a b; rw [positionChildren_nil]
  | cons u us ihl =>
    intro a b
    rw [positionChildren_cons]
    simp only [List.map_cons]
    rw [ih u (by simp), ihl (fun v hv => ih v (by simp [hv]))]

/-- The position pass does not change any subtree width: widths depend only
on the tree shape and collapse flags, which it preserves. -/
theorem width_positionNodes (n : NodeData) :
    ∀ qx qy, calculateSubtreeWidth (positionNodes n qx qy) = calculateSubtreeWidth n := by
  induction n using NodeData.inductionOn with
  | step i t ch px py c sh cs d ih =>
    intro qx qy
    rw [positionNodes_mk]
    by_cases hc : (c || ch.isEmpty) = true
    · rw [if_pos hc, calculateSubtreeWidth_mk, calculateSubtreeWidth_mk]
    · rw [if_neg hc, calculateSubtreeWidth_mk, calculateSubtreeWidth_mk]
      have hlen : (positionChildren ch
          (qx - ((ch.map calculateSubtreeWidth).sum
            + ((ch.length - 1 : ℕ) : ℚ) * HALF_GAP) / 2) (qy + VERTICAL)).length
          = ch.length := positionChildren_length ch _ _
      have hchne : ch ≠ [] := by
        intro h0
        exact hc (by simp [h0])
      have hpcne : (positionChildren ch
          (qx - ((ch.map calculateSubtreeWidth).sum
            + ((ch.length - 1 : ℕ) : ℚ) * HALF_GAP) / 2) (qy + VERTICAL)) ≠ [] := by
        intro h0
        rw [h0] at hlen
        exact hchne (List.length_eq_zero.mp hlen.symm)
      have hcf : c = false := by
        cases c with
        | false => rfl
        | true => exact absurd (by simp) hc
      have hempty : (positionChildren ch
          (qx - ((ch.map calculateSubtreeWidth).sum
            + ((ch.length - 1 : ℕ) : ℚ) * HALF_GAP) / 2) (qy + VERTICAL)).isEmpty
          = false := by
        simp [List.isEmpty_iff, hpcne]
      rw [hcf, hempty]
      simp only [Bool.or_false, if_neg (by simp : ¬(false = true))]
      rw [widths_positionChildren ch ih, hlen,
        if_neg (by simp [List.isEmpty_iff, hchne])]

theorem widths_positionChildren' (cs : List NodeData) (a b : ℚ) :
    (positionChildren cs a b).map calculateSubtreeWidth
      = cs.map calculateSubtreeWidth :=
  widths_positionChildren cs (fun u _ => width_positionNodes u) a b

/-! ## Sibling span separation -/

theorem sepB_nil : sepB [] = true := rfl

theorem sepB_cons (u : NodeData) (us : List NodeData) :
    sepB (u :: us) = (us.all (fun v => decide (spanHi u < spanLo v)) && sepB us) := rfl

theorem spanLo_positionNodes (u : NodeData) (p q : ℚ) :
    spanLo (positionNodes u p q) = p - calculateSubtreeWidth u / 2 := by
  rw [spanLo, positionNodes_x, width_positionNodes]
  rfl

theorem spanHi_positionNodes (u : NodeData) (p q : ℚ) :
    spanHi (positionNodes u p q) = p + calculateSubtreeWidth u / 2 := by
  rw [spanHi, positionNodes_x, width_positionNodes]
  rfl

/-- The laid-out children of one parent are strictly separated, and every one
of them starts at or after the running x the walk started from. -/
theorem sep_positionChildren (cs : List NodeData) :
    ∀ a b, sepB (positionChildren cs a b) = true
      ∧ ∀ v ∈ positionChildren cs a b, a ≤ spanLo v := by
  induction cs with
  | nil =>
    intro a b
    rw [positionChildren_nil]
    exact ⟨sepB_nil, by intro v hv; cases hv⟩
  | cons u us ih =>
    intro a b
    rw [positionChildren_cons]
    set w := calculateSubtreeWidth u with hw
    have hlo : spanLo (positionNodes u (a + w / 2) b) = a := by
      rw [spanLo_positionNodes, ← hw]
      ring
    have hhi : spanHi (positionNodes u (a + w / 2) b) = a + w := by
      rw [spanHi_positionNodes, ← hw]
      ring
    obtain ⟨hsep, hmem⟩ := ih (a + w + HALF_GAP) b
    constructor
    · rw [sepB_cons, hsep, Bool.and_true, List.all_eq_true]
      intro v hv
      rw [decide_eq_true_eq, hhi]
      have h1 := hmem v hv
      have h2 := HALF_GAP_pos
      linarith
    · intro v hv
      rcases List.mem_cons.mp hv with h | h
      · rw [h, hlo]
      · have h1 := hmem v h
        have h2 := HALF_GAP_pos
        have h3 : 0 < w := width_pos u
        linarith

/-- Everything `positionChildren` produces is a `positionNodes` image of a
member of the input list. -/
theorem mem_positionChildren (cs : List NodeData) :
    ∀ a b v, v ∈ positionChildren cs a b →
      ∃ u ∈ cs, ∃ p q, v = positionNodes u p q := by
  induction cs with
  | nil =>
    intro a b v hv
    rw [positionChildren_nil] at hv
    cases hv
  | cons u us ih =>
    intro a b v hv
    rw [positionChildren_cons] at hv
    rcases List.mem_cons.mp hv with h | h
    · exact ⟨u, by simp, _, _, h⟩
    · obtain ⟨u', hu', p, q, hpq⟩ := ih _ _ v h
      exact ⟨u', by simp [hu'], p, q, hpq⟩

/-- After a layout pass, no two sibling subtree spans overlap anywhere in the
visible part of the tree (in fact each earlier sibling's span ends strictly
before the next one's begins). -/
theorem positionNodes_noOverlap_aux (n : NodeData) :
    ∀ qx qy, noOverlap (positionNodes n qx qy) = true := by
  induction n using NodeData.inductionOn with
  | step i t ch px py c sh cs d ih =>
    intro qx qy
    rw [positionNodes_mk]
    by_cases hc : (c || ch.isEmpty) = true
    · rw [if_pos hc, noOverlap_mk]
      cases c with
      | true => rfl
      | false =>
        have hch : ch = [] := by
          simp only [Bool.false_or] at hc
          exact List.isEmpty_iff.mp hc
        subst hch
        rfl
    · rw [if_neg hc, noOverlap_mk]
      have hcf : c = false := by
        cases c with
        | false => rfl
        | true => exact absurd (by simp) hc
      subst hcf
      rw [Bool.false_or, Bool.and_eq_true, List.all_eq_true]
      refine ⟨(sep_positionChildren ch _ _).1, ?_⟩
      intro v hv
      obtain ⟨u, hu, p, q, hpq⟩ := mem_positionChildren ch _ _ v hv
      rw [hpq]
      exact ih u hu p q

/-! ## Exact anchors of the position pass -/

theorem advanceBefore_zero (cs : List NodeData) : advanceBefore cs 0 = 0 := by
  simp [advanceBefore]

theorem advanceBefore_succ (u : NodeData) (us : List NodeData) (k : ℕ) :
    advanceBefore (u :: us) (k + 1) =
      calculateSubtreeWidth u + HALF_GAP + advanceBefore us k := by
  simp [advanceBefore]

/-- The `k`-th laid-out child is the `k`-th input child positioned at the
center of its own subtree-width slice of the block. -/
theorem positionChildren_getElem (cs : List NodeData) :
    ∀ a b k, (positionChildren cs a b)[k]? =
      (cs[k]?).map (fun u =>
        positionNodes u (a + advanceBefore cs k + calculateSubtreeWidth u / 2) b) := by
  induction cs with
  | nil =>
    intro a b k
    rw [positionChildren_nil]
    simp
  | cons u us ih =>
    intro a b k
    rw [positionChildren_cons]
    cases k with
    | zero => simp [advanceBefore_zero]
    | succ k =>
      simp only [List.getElem?_cons_succ]
      rw [ih]
      simp only [advanceBefore_succ]
      have harith : a + calculateSubtreeWidth u + HALF_GAP + advanceBefore us k
          = a + (calculateSubtreeWidth u + HALF_GAP + advanceBefore us k) := by
        ring
      simp only [harith]

/-! ## Idempotence of the position pass -/

theorem positionChildren_idem_aux (cs : List NodeData)
    (ih : ∀ u ∈ cs, ∀ p q,
      positionNodes (positionNodes u p q) p q = positionNodes u p q) :
    ∀ a b, positionChildren (positionChildren cs a b) a b
      = positionChildren cs a b := by
  induction cs with
  | nil =>
    intro a b
    rw [positionChildren_nil, positionChildren_nil]
  | cons u us ihl =>
    intro a b
    rw [positionChildren_cons]
    rw [positionChildren_cons, width_positionNodes]
    rw [ih u (by simp), ihl (fun v hv => ih v (by simp [hv]))]

/-- Running the position pass on its own output (same anchor) is a no-op. -/
theorem positionNodes_idem_aux (n : NodeData) :
    ∀ qx qy, positionNodes (positionNodes n qx qy) qx qy = positionNodes n qx qy := by
  induction n using NodeData.inductionOn with
  | step i t ch px py c sh cs d ih =>
    intro qx qy
    rw [positionNodes_mk]
    by_cases hc : (c || ch.isEmpty) = true
    · rw [if_pos hc, positionNodes_mk, if_pos hc]
    · rw [if_neg hc]
      have hcf : c = false := by
        cases c with
        | false => rfl
        | true => exact absurd (by simp) hc
      subst hcf
      have hchne : ch ≠ [] := by
        intro h0
        exact hc (by simp [h0])
      set a := qx - ((ch.map calculateSubtreeWidth).sum
        + ((ch.length - 1 : ℕ) : ℚ) * HALF_GAP) / 2 with ha
      rw [positionNodes_mk]
      have hpcne : positionChildren ch a (qy + VERTICAL) ≠ [] := by
        intro h0
        have := positionChildren_length ch a (qy + VERTICAL)
        rw [h0] at this
        exact hchne (List.length_eq_zero.mp this.symm)
      rw [if_neg (by simp [List.isEmpty_iff, hpcne])]
      rw [widths_positionChildren', positionChildren_length, ← ha]
      rw [positionChildren_idem_aux ch ih]

/-! ## Frame: the position pass touches only coordinates -/

theorem stripPos_positionChildren (cs : List NodeData)
    (ih : ∀ u ∈ cs, ∀ p q, stripPos (positionNodes u p q) = stripPos u) :
    ∀ a b, (positionChildren cs a b).map stripPos = cs.map stripPos := by
  induction cs with
  | nil =>
    intro a b
    rw [positionChildren_nil]
  | cons u us ihl =>
    intro a b
    rw [positionChildren_cons]
    simp only [List.map_cons]
    rw [ih u (by simp), ihl (fun v hv => ih v (by simp [hv]))]

/-- Erasing coordinates after a layout pass gives the same tree as erasing
them before: the pass changes nothing but `x` and `y`. -/
theorem stripPos_positionNodes (n : NodeData) :
    ∀ qx qy, stripPos (positionNodes n qx qy) = stripPos n := by
  induction n using NodeData.inductionOn with
  | step i t ch px py c sh cs d ih =>
    intro qx qy
    rw [positionNodes_mk]
    by_cases hc : (c || ch.isEmpty) = true
    · rw [if_pos hc, stripPos_mk, stripPos_mk]
    · rw [if_neg hc, stripPos_mk, stripPos_mk,
        stripPos_positionChildren ch ih]

/-! ## Toggle collapse is an involution -/

theorem toggleCollapse_involutive (target : String) (n : NodeData) :
    toggleCollapse target (toggleCollapse target n) = n := by
  induction n using NodeData.inductionOn with
  | step i t ch px py c sh cs d ih =>
    rw [toggleCollapse_mk]
    by_cases hi : i = target
    · rw [if_pos hi, toggleCollapse_mk, if_pos hi, Bool.not_not]
    · rw [if_neg hi, toggleCollapse_mk, if_neg hi, List.map_map]
      congr 1
      have : ∀ u ∈ ch, (toggleCollapse target ∘ toggleCollapse target) u = u := by
        intro u hu
        exact ih u hu
      rw [List.map_congr_left this]
      simp

/-! ## Sample trees used to instantiate the theorems -/

def sampleLeafA : NodeData := .mk ("a") "A" [] none none false none none none

def sampleLeafB : NodeData := .mk ("b") "B" [] none none false none none none

def sampleParent : NodeData :=
  .mk ("p") "P" [sampleLeafA, sampleLeafB] none none false none none none

def sampleCollapsed : NodeData :=
  .mk ("q") "Q" [sampleLeafA] (some 3) (some 4) true none none none

/-- A root whose only child `p` is collapsed. -/
def sampleTreeC : NodeData :=
  .mk ("root") "T" [.mk ("p") "P" [] none none true none none none]
    (some 0) (some 0) false none none none

/-- A root with a child `p` (itself with a grandchild `g`) and a child `q`. -/
def sampleTreeD : NodeData :=
  .mk ("root") "T"
    [.mk ("p") "P" [.mk ("g") "G" [] none none false none none none]
      none none false none none none,
     .mk ("q") "Q" [] none none false none none none]
    (some 0) (some 0) false none none none

/-! ## Claim theorems: layout -/

/-- C2: the width pass computes `NODE_WIDTH + HALF_GAP` for a collapsed or
childless node, and otherwise the max of that footprint and the children's
summed widths plus `(childCount − 1) · HALF_GAP`; consequently a subtree's
width is never below its own footprint nor below what its children need. -/
theorem calculateSubtreeWidth_spec (n : NodeData) :
    ((n.isCollapsed = true ∨ n.children = []) →
      calculateSubtreeWidth n = NODE_WIDTH + HALF_GAP)
    ∧ (n.isCollapsed = false → n.children ≠ [] →
      calculateSubtreeWidth n = max (NODE_WIDTH + HALF_GAP)
        ((n.children.map calculateSubtreeWidth).sum
          + ((n.children.length - 1 : ℕ) : ℚ) * HALF_GAP))
    ∧ NODE_WIDTH + HALF_GAP ≤ calculateSubtreeWidth n
    ∧ (n.isCollapsed = false → n.children ≠ [] →
      (n.children.map calculateSubtreeWidth).sum
        + ((n.children.length - 1 : ℕ) : ℚ) * HALF_GAP ≤ calculateSubtreeWidth n) := by
  cases n with
  | mk i t ch px py c sh cs d =>
    simp only [NodeData.isCollapsed_mk, NodeData.children_mk]
    refine ⟨?_, ?_, footprint_le_width _, ?_⟩
    · intro h
      rw [calculateSubtreeWidth_mk, if_pos]
      rcases h with h | h
      · simp [h]
      · simp [h]
    · intro hcf hch
      rw [calculateSubtreeWidth_mk, if_neg (by simp [hcf, List.isEmpty_iff, hch])]
    · intro hcf hch
      rw [calculateSubtreeWidth_mk, if_neg (by simp [hcf, List.isEmpty_iff, hch])]
      exact le_max_right _ _

/-- Witness for C2 at concrete nodes: a leaf gets the fixed footprint, and a
two-child parent gets the max formula. -/
theorem calculateSubtreeWidth_spec_witness :
    calculateSubtreeWidth sampleLeafA = NODE_WIDTH + HALF_GAP
    ∧ calculateSubtreeWidth sampleParent
        = max (NODE_WIDTH + HALF_GAP)
          ((sampleParent.children.map calculateSubtreeWidth).sum
            + ((sampleParent.children.length - 1 : ℕ) : ℚ) * HALF_GAP) :=
  ⟨(calculateSubtreeWidth_spec sampleLeafA).1 (Or.inr rfl),
   (calculateSubtreeWidth_spec sampleParent).2.1 rfl (by simp [sampleParent])⟩

/-- C1: after a layout pass, at every visible node the sibling subtree spans
`x ± subtreeWidth/2` are pairwise non-overlapping — `noOverlap` checks that
each earlier sibling's span ends strictly before every later sibling's span
begins, at every node not hidden below a collapsed one. -/
theorem positionNodes_noOverlap (t : NodeData) (rootX rootY : ℚ) :
    noOverlap (positionNodes t rootX rootY) = true :=
  positionNodes_noOverlap_aux t rootX rootY

/-- C3: the position pass assigns the caller's anchor to the root, stops at
collapsed or childless nodes (children untouched), and otherwise places the
`k`-th child at `startX + advance(k) + width_k/2` (the block centered under
the parent) one `VERTICAL` band below. -/
theorem positionNodes_spec (t : NodeData) (rootX rootY : ℚ) :
    (positionNodes t rootX rootY).x = some rootX
    ∧ (positionNodes t rootX rootY).y = some rootY
    ∧ ((t.isCollapsed || t.children.isEmpty) = true →
        (positionNodes t rootX rootY).children = t.children)
    ∧ ((t.isCollapsed || t.children.isEmpty) = false →
        ∀ k u, t.children[k]? = some u →
          ∃ v, (positionNodes t rootX rootY).children[k]? = some v
            ∧ v.x = some (rootX - totalChildrenWidth t.children / 2
                + advanceBefore t.children k + calculateSubtreeWidth u / 2)
            ∧ v.y = some (rootY + VERTICAL)) := by
  cases t with
  | mk i tx ch px py c sh cs d =>
    refine ⟨positionNodes_x _ _ _, positionNodes_y _ _ _, ?_, ?_⟩
    · intro h
      rw [positionNodes_mk, if_pos (by simpa using h)]
      simp
    · intro h k u hk
      simp only [NodeData.children_mk] at hk ⊢
      rw [positionNodes_mk, if_neg (by simp_all)]
      simp only [NodeData.children_mk]
      refine ⟨positionNodes u
        ((rootX - ((ch.map calculateSubtreeWidth).sum
          + ((ch.length - 1 : ℕ) : ℚ) * HALF_GAP) / 2)
          + advanceBefore ch k + calculateSubtreeWidth u / 2) (rootY + VERTICAL), ?_, ?_, ?_⟩
      · rw [positionChildren_getElem, hk]
        rfl
      · rw [positionNodes_x]
        rfl
      · exact positionNodes_y _ _ _

/-- Witness for C3: at a concrete two-child parent the first child is placed
at the computed slice center one band below, and a collapsed node's children
are untouched. -/
theorem positionNodes_spec_witness :
    (∃ v, (positionNodes sampleParent 0 0).children[0]? = some v
      ∧ v.x = some ((0 : ℚ) - totalChildrenWidth sampleParent.children / 2
          + advanceBefore sampleParent.children 0 + calculateSubtreeWidth sampleLeafA / 2)
      ∧ v.y = some ((0 : ℚ) + VERTICAL))
    ∧ (positionNodes sampleCollapsed 5 6).children = sampleCollapsed.children :=
  ⟨(positionNodes_spec sampleParent 0 0).2.2.2 rfl 0 sampleLeafA rfl,
   (positionNodes_spec sampleCollapsed 5 6).2.2.1 rfl⟩

/-- C4: layout is pure and deterministic — rerunning the position pass on its
own output with the same anchor reproduces exactly the same coordinates for
every node. -/
theorem positionNodes_idem (t : NodeData) (rootX rootY : ℚ) :
    positionNodes (positionNodes t rootX rootY) rootX rootY
      = positionNodes t rootX rootY :=
  positionNodes_idem_aux t rootX rootY

/-- C10: a layout pass changes only `x` and `y` — erasing coordinates gives
back the input tree (ids, texts, children order, collapse flags and style
fields intact, no node added or removed), and a collapsed node's children
(with their stored coordinates) are returned untouched. -/
theorem positionNodes_frame (t : NodeData) (rootX rootY : ℚ) :
    stripPos (positionNodes t rootX rootY) = stripPos t
    ∧ (t.isCollapsed = true →
        (positionNodes t rootX rootY).children = t.children) := by
  refine ⟨stripPos_positionNodes t rootX rootY, ?_⟩
  intro h
  cases t with
  | mk i tx ch px py c sh cs d =>
    simp only [NodeData.isCollapsed_mk] at h
    rw [positionNodes_mk, if_pos (by simp [h])]
    simp

/-- Witness for C10 at a concrete collapsed node: its children, previously
stored coordinates included, survive the layout pass unchanged. -/
theorem positionNodes_frame_witness :
    (positionNodes sampleCollapsed 7 8).children = sampleCollapsed.children :=
  (positionNodes_frame sampleCollapsed 7 8).2 rfl

/-- C7: toggling the same node's collapse flag twice with no intervening
mutation restores the tree exactly, so a subsequent layout pass produces the
same coordinates as a layout pass before the first toggle. -/
theorem toggleCollapse_double (nodeId : String) (t : NodeData) (rootX rootY : ℚ) :
    toggleCollapse nodeId (toggleCollapse nodeId t) = t
    ∧ positionNodes (toggleCollapse nodeId (toggleCollapse nodeId t)) rootX rootY
        = positionNodes t rootX rootY := by
  refine ⟨toggleCollapse_involutive nodeId t, ?_⟩
  rw [toggleCollapse_involutive]

/-- C9: zoom-at-pointer — after `handleWheel` recomputes scale and offset,
the world point under the pointer is unchanged (exactly, in `ℚ`). -/
theorem handleWheel_spec (oldScale : ℚ) (pos p : Vec) (zoomIn : Bool)
    (h : 0 < oldScale) :
    worldUnder (handleWheel oldScale pos p zoomIn).2
        (handleWheel oldScale pos p zoomIn).1 p
      = worldUnder pos oldScale p := by
  have hs : oldScale ≠ 0 := ne_of_gt h
  have hb : scaleBy ≠ 0 := by norm_num [scaleBy]
  cases zoomIn with
  | true =>
    show Vec.mk _ _ = Vec.mk _ _
    simp only [handleWheel, worldUnder, if_pos]
    congr 1 <;> (field_simp; try ring)
  | false =>
    show Vec.mk _ _ = Vec.mk _ _
    simp only [handleWheel, worldUnder, if_neg]
    congr 1 <;> (field_simp; try ring)

/-- Witness for C9 at a concrete positive scale, offset and pointer. -/
theorem handleWheel_spec_witness :
    (0 : ℚ) < 2
    ∧ worldUnder (handleWheel 2 ⟨3, 4⟩ ⟨5, 6⟩ true).2
        (handleWheel 2 ⟨3, 4⟩ ⟨5, 6⟩ true).1 ⟨5, 6⟩
      = worldUnder ⟨3, 4⟩ 2 ⟨5, 6⟩ :=
  ⟨by decide, handleWheel_spec 2 ⟨3, 4⟩ ⟨5, 6⟩ true (by decide)⟩

/-! ## Claim theorems: batch insertion (C8) -/

theorem jsTrim_filter_idem (l : List String) :
    (l.filter (fun s => jsTrim s != "")).filter (fun s => jsTrim s != "")
      = l.filter (fun s => jsTrim s != "") := by
  rw [List.filter_filter]
  simp only [Bool.and_self]

theorem insertChildrenAt_filtered (parentId : String) (mkId : ℕ → String)
    (sh cs : Option String) (topics : List String) (t : NodeData) :
    insertChildrenAt parentId mkId sh cs topics t
      = insertChildrenAt parentId mkId sh cs
          (topics.filter (fun s => jsTrim s != "")) t := by
  induction t using NodeData.inductionOn with
  | step i tx ch px py c sh0 cs0 d ih =>
    rw [insertChildrenAt_mk, insertChildrenAt_mk]
    by_cases hi : i = parentId
    · rw [if_pos hi, if_pos hi, jsTrim_filter_idem]
    · rw [if_neg hi, if_neg hi]
      congr 1
      exact List.map_congr_left ih

theorem insertChildrenAt_all_filtered (parentId : String) (mkId : ℕ → String)
    (sh cs : Option String) (topics : List String)
    (h : topics.filter (fun s => jsTrim s != "") = []) (t : NodeData) :
    insertChildrenAt parentId mkId sh cs topics t = uncollapseAt parentId t := by
  induction t using NodeData.inductionOn with
  | step i tx ch px py c sh0 cs0 d ih =>
    rw [insertChildrenAt_mk, uncollapseAt_mk]
    by_cases hi : i = parentId
    · rw [if_pos hi, if_pos hi, h]
      simp
    · rw [if_neg hi, if_neg hi]
      congr 1
      exact List.map_congr_left ih

/-- C8 (amended): the batch inserter filters out every empty or
whitespace-only label before inserting — inserting a batch is the same as
inserting its filtered form — but an all-filtered batch is not rejected with
`EmptyBatch`: no children are added, yet the matched parent's `isCollapsed`
flag is still cleared (the operation acts as `uncollapseAt`), so the tree can
still change. -/
theorem insertChildrenAt_empty_batch (parentId : String) (mkId : ℕ → String)
    (sh cs : Option String) (topics : List String) (t : NodeData) :
    insertChildrenAt parentId mkId sh cs topics t
      = insertChildrenAt parentId mkId sh cs
          (topics.filter (fun s => jsTrim s != "")) t
    ∧ (topics.filter (fun s => jsTrim s != "") = [] →
        insertChildrenAt parentId mkId sh cs topics t = uncollapseAt parentId t) :=
  ⟨insertChildrenAt_filtered parentId mkId sh cs topics t,
   fun h => insertChildrenAt_all_filtered parentId mkId sh cs topics h t⟩

/-- Witness for C8 (amended) at a concrete all-whitespace batch on a tree
with a collapsed parent. -/
theorem insertChildrenAt_empty_batch_witness :
    insertChildrenAt ("p") (fun k => String.append ("ai-") (toString k)) none none
        [" "] sampleTreeC
      = uncollapseAt ("p") sampleTreeC :=
  (insertChildrenAt_empty_batch ("p") (fun k => String.append ("ai-") (toString k))
    none none [" "] sampleTreeC).2 (by decide)

/-- C8 counterexample: on a batch whose labels are all whitespace-only, the
claim says no field of any node changes; but the code still clears the
matched parent's `isCollapsed` flag — here `p` is collapsed before the call
and not collapsed after it. -/
theorem insertChildrenAt_empty_batch_mutates :
    (findNodeById ("p") [handleGenerateAINodes ("p")
        (fun k => String.append ("ai-") (toString k)) none none [" "] sampleTreeC]).map
        NodeData.isCollapsed = some false
    ∧ (findNodeById ("p") [sampleTreeC]).map NodeData.isCollapsed = some true := by
  constructor <;> decide

/-! ## Id bookkeeping for deletion (C6) -/

theorem allIds_mk' (i t ch px py c sh cs d) :
    allIds (.mk i t ch px py c sh cs d) = i :: allIdsList ch := rfl

theorem allIdsList_nil : allIdsList [] = [] := rfl

theorem allIdsList_cons (u : NodeData) (us : List NodeData) :
    allIdsList (u :: us) = allIds u ++ allIdsList us := rfl

theorem findNodeById_match (target : String) (u : NodeData) (rest : List NodeData) :
    findNodeById target (u :: rest) =
      match findInNode target u with
      | some f => some f
      | none => findNodeById target rest := rfl

theorem deleteChildren_cons (target : String) (u : NodeData) (us : List NodeData) :
    deleteChildren target (u :: us) =
      if u.id != target then
        match deleteNode target u with
        | some v => v :: deleteChildren target us
        | none => deleteChildren target us
      else deleteChildren target us := rfl

theorem perm_rot {α : Type} (A S L : List α) : ((A ++ S) ++ L).Perm ((A ++ L) ++ S) := by
  have h1 : (A ++ S) ++ L = A ++ (S ++ L) := List.append_assoc A S L
  have h2 : (A ++ L) ++ S = A ++ (L ++ S) := List.append_assoc A L S
  rw [h1, h2]
  exact List.Perm.append_left A List.perm_append_comm

theorem perm_assoc {α : Type} (A L S : List α) : (A ++ (L ++ S)).Perm ((A ++ L) ++ S) := by
  rw [List.append_assoc]

theorem mem_allIdsList (a : String) (cs : List NodeData) :
    a ∈ allIdsList cs ↔ ∃ u ∈ cs, a ∈ allIds u := by
  induction cs with
  | nil => simp [allIdsList_nil]
  | cons u us ih =>
    rw [allIdsList_cons]
    simp [List.mem_append, ih]

theorem id_mem_allIds (u : NodeData) : u.id ∈ allIds u := by
  cases u with
  | mk i t ch px py c sh cs d =>
    rw [allIds_mk']
    simp

theorem deleteNode_not_mem (target : String) (u : NodeData) :
    target ∉ allIds u → deleteNode target u = some u := by
  induction u using NodeData.inductionOn with
  | step i t ch px py c sh cs d ih =>
    intro h
    rw [allIds_mk'] at h
    have hi : i ≠ target := fun he => h (by rw [he]; exact List.mem_cons_self _ _)
    have hch : ∀ u ∈ ch, target ∉ allIds u := by
      intro u hu hmem
      exact h (List.mem_cons_of_mem _ ((mem_allIdsList target ch).mpr ⟨u, hu, hmem⟩))
    have hlist : ∀ (cs : List NodeData), (∀ u ∈ cs, target ∉ allIds u) →
        (∀ u ∈ cs, target ∉ allIds u → deleteNode target u = some u) →
        deleteChildren target cs = cs := by
      intro cs
      induction cs with
      | nil => intro _ _; rfl
      | cons u us ihl =>
        intro hcs hdel
        have h1 : target ∉ allIds u := hcs u (by simp)
        have h2 : (u.id != target) = true :=
          bne_iff_ne.mpr (fun he => h1 (he ▸ id_mem_allIds u))
        rw [deleteChildren, if_pos h2, hdel u (by simp) h1,
          ihl (fun v hv => hcs v (by simp [hv])) (fun v hv h' => hdel v (by simp [hv]) h')]
    rw [deleteNode, if_neg hi]
    rw [hlist ch hch (fun v hv h' => ih v hv h')]

theorem deleteChildren_skip (target : String) :
    ∀ (cs : List NodeData), (∀ u ∈ cs, target ∉ allIds u) →
      deleteChildren target cs = cs := by
  intro cs
  induction cs with
  | nil => intro _; rfl
  | cons u us ih =>
    intro h
    have h1 := h u (by simp)
    have h2 : (u.id != target) = true :=
      bne_iff_ne.mpr (fun he => h1 (by rw [← he]; exact id_mem_allIds u))
    rw [deleteChildren, if_pos h2,
      deleteNode_not_mem target u h1, ih (fun v hv => h v (by simp [hv]))]

theorem findInNode_not_mem (target : String) (u : NodeData) :
    target ∉ allIds u → findInNode target u = none := by
  induction u using NodeData.inductionOn with
  | step i t ch px py c sh cs d ih =>
    intro h
    rw [allIds_mk'] at h
    have hi : i ≠ target := fun he => h (by rw [he]; exact List.mem_cons_self _ _)
    have hch : ∀ u ∈ ch, target ∉ allIds u := by
      intro u hu hmem
      exact h (List.mem_cons_of_mem _ ((mem_allIdsList target ch).mpr ⟨u, hu, hmem⟩))
    have hlist : ∀ (cs : List NodeData), (∀ u ∈ cs, target ∉ allIds u) →
        (∀ u ∈ cs, target ∉ allIds u → findInNode target u = none) →
        findNodeById target cs = none := by
      intro cs
      induction cs with
      | nil => intro _ _; rfl
      | cons u us ihl =>
        intro hcs hf
        rw [findNodeById, hf u (by simp) (hcs u (by simp))]
        exact ihl (fun v hv => hcs v (by simp [hv])) (fun v hv h' => hf v (by simp [hv]) h')
    rw [findInNode, if_neg hi]
    exact hlist ch hch (fun v hv h' => ih v hv h')

theorem findNodeById_not_mem (target : String) :
    ∀ (cs : List NodeData), (∀ u ∈ cs, target ∉ allIds u) →
      findNodeById target cs = none := by
  intro cs
  induction cs with
  | nil => intro _; rfl
  | cons u us ih =>
    intro h
    rw [findNodeById, findInNode_not_mem target u (h u (by simp))]
    exact ih (fun v hv => h v (by simp [hv]))

/-- Specification of a successful deletion inside `u`: the target is removed
together with exactly the ids of the subtree `findNodeById` locates. -/
def DeleteSpec (target : String) (u : NodeData) : Prop :=
  (allIds u).Nodup → u.id ≠ target → target ∈ allIds u →
    ∃ u' sub, deleteNode target u = some u'
      ∧ findNodeById target u.children = some sub
      ∧ sub.id = target
      ∧ (allIds u).Perm (allIds u' ++ allIds sub)

theorem deleteChildren_found_list (target : String) :
    ∀ (cs : List NodeData), (∀ u ∈ cs, DeleteSpec target u) →
      (allIdsList cs).Nodup → target ∈ allIdsList cs →
      ∃ sub, findNodeById target cs = some sub ∧ sub.id = target
        ∧ (allIdsList cs).Perm (allIdsList (deleteChildren target cs) ++ allIds sub) := by
  intro cs
  induction cs with
  | nil =>
    intro _ _ hmem
    rw [allIdsList_nil] at hmem
    cases hmem
  | cons u us ih =>
    intro ihm hnd hmem
    rw [allIdsList_cons] at hnd hmem
    obtain ⟨hndu, hndus, hdisj⟩ := List.nodup_append.mp hnd
    rcases List.mem_append.mp hmem with hmu | hmus
    · have hrestnm : ∀ v ∈ us, target ∉ allIds v := by
        intro v hv hmem'
        exact hdisj hmu ((mem_allIdsList target us).mpr ⟨v, hv, hmem'⟩)
      by_cases hid : u.id = target
      · have hfi : findInNode target u = some u := by
          cases u with
          | mk i t ch px py c sh cs d =>
            rw [findInNode, if_pos (by simpa using hid)]
        refine ⟨u, ?_, hid, ?_⟩
        · rw [findNodeById_match, hfi]
        · rw [deleteChildren_cons, if_neg (by simp [hid]),
            deleteChildren_skip target us hrestnm, allIdsList_cons]
          exact List.perm_append_comm
      · obtain ⟨u', sub, hdel, hfind, hsubid, hperm⟩ := ihm u (by simp) hndu hid hmu
        have hfi : findInNode target u = some sub := by
          cases u with
          | mk i t ch px py c sh cs d =>
            rw [findInNode, if_neg (by simpa using hid)]
            simpa using hfind
        refine ⟨sub, ?_, hsubid, ?_⟩
        · rw [findNodeById_match, hfi]
        · rw [deleteChildren_cons, if_pos (bne_iff_ne.mpr hid), hdel,
            deleteChildren_skip target us hrestnm, allIdsList_cons, allIdsList_cons]
          exact (hperm.append_right _).trans (perm_rot _ _ _)
    · have hnotu : target ∉ allIds u := fun hin => hdisj hin hmus
      obtain ⟨sub, hfind, hsubid, hperm⟩ :=
        ih (fun v hv => ihm v (by simp [hv])) hndus hmus
      refine ⟨sub, ?_, hsubid, ?_⟩
      · rw [findNodeById_match, findInNode_not_mem target u hnotu]
        exact hfind
      · have hid' : (u.id != target) = true :=
          bne_iff_ne.mpr (fun he => hnotu (by rw [← he]; exact id_mem_allIds u))
        rw [deleteChildren_cons, if_pos hid', deleteNode_not_mem target u hnotu,
          allIdsList_cons, allIdsList_cons]
        exact (List.Perm.append_left _ hperm).trans (perm_assoc _ _ _)

theorem deleteNode_found (target : String) (t : NodeData) : DeleteSpec target t := by
  induction t using NodeData.inductionOn with
  | step i tx ch px py c sh cs d ih =>
    intro hnd hid hmem
    rw [allIds_mk'] at hnd hmem
    simp only [NodeData.id_mk] at hid
    have hmem' : target ∈ allIdsList ch := by
      rcases List.mem_cons.mp hmem with h | h
      · exact absurd h.symm hid
      · exact h
    have hnd' : (allIdsList ch).Nodup := (List.nodup_cons.mp hnd).2
    obtain ⟨sub, hfind, hsubid, hperm⟩ :=
      deleteChildren_found_list target ch ih hnd' hmem'
    refine ⟨.mk i tx (deleteChildren target ch) px py c sh cs d, sub, ?_, ?_, hsubid, ?_⟩
    · rw [deleteNode, if_neg hid]
    · simpa using hfind
    · rw [allIds_mk', allIds_mk', List.cons_append]
      exact hperm.cons i

/-- C6 (amended): deleting the reserved root id `"root"` is rejected and the
tree is unchanged; deleting a resolvable non-root id removes exactly that
node and all of its descendants (the removed ids are precisely those of the
subtree `findNodeById` locates, so no orphaned children remain); deleting an
id that resolves nowhere applies no mutation — but it is not reported as a
`NodeNotFound` failure: the unchanged tree comes back as a normal result. -/
theorem handleDelete_spec :
    (∀ t : NodeData, handleDelete ("root") t = some t)
    ∧ (∀ (t : NodeData) (target : String), target ∉ allIds t →
        handleDelete target t = some t)
    ∧ (∀ (t : NodeData) (target : String), target ≠ "root" → t.id ≠ target →
        (allIds t).Nodup → target ∈ allIds t →
        ∃ t' sub, handleDelete target t = some t'
          ∧ findNodeById target [t] = some sub ∧ sub.id = target
          ∧ (allIds t).Perm (allIds t' ++ allIds sub)
          ∧ ∀ j ∈ allIds sub, j ∉ allIds t') := by
  refine ⟨?_, ?_, ?_⟩
  · intro t
    rw [handleDelete, if_pos rfl]
  · intro t target h
    rw [handleDelete]
    by_cases ht : target = "root"
    · rw [if_pos ht]
    · rw [if_neg ht]
      exact deleteNode_not_mem target t h
  · intro t target hroot hid hnd hmem
    obtain ⟨t', sub, hdel, hfind, hsubid, hperm⟩ := deleteNode_found target t hnd hid hmem
    refine ⟨t', sub, ?_, ?_, hsubid, hperm, ?_⟩
    · rw [handleDelete, if_neg hroot]
      exact hdel
    · cases t with
      | mk i tx ch px py c sh cs d =>
        have hfi : findInNode target (.mk i tx ch px py c sh cs d) = some sub := by
          rw [findInNode, if_neg (by simpa using hid)]
          simpa using hfind
        rw [findNodeById_match, hfi]
    · intro j hjsub hjt'
      have hnd2 : (allIds t' ++ allIds sub).Nodup := hperm.nodup hnd
      obtain ⟨_, _, hdisj⟩ := List.nodup_append.mp hnd2
      exact hdisj hjt' hjsub

/-- Witness for C6 (amended): a missing id leaves a concrete tree unchanged,
and deleting child `p` of a concrete tree removes exactly `p` and its
grandchild `g`. -/
theorem handleDelete_spec_witness :
    handleDelete ("zz") sampleTreeC = some sampleTreeC
    ∧ ∃ t' sub, handleDelete ("p") sampleTreeD = some t'
        ∧ findNodeById ("p") [sampleTreeD] = some sub ∧ sub.id = "p"
        ∧ (allIds sampleTreeD).Perm (allIds t' ++ allIds sub)
        ∧ ∀ j ∈ allIds sub, j ∉ allIds t' :=
  ⟨handleDelete_spec.2.1 sampleTreeC ("zz") (by decide),
   handleDelete_spec.2.2 sampleTreeD ("p") (by decide) (by decide) (by decide) (by decide)⟩

/-- C6 counterexample: for an id that resolves nowhere the claim says the
operation fails with `NodeNotFound`; the code instead returns the unchanged
tree as a normal (non-error) result, diverging from the spec-modelled
`deleteSubtreeSpec` at the same input. -/
theorem handleDelete_missing_no_failure :
    handleDelete ("ghost") sampleTreeC = some sampleTreeC
    ∧ deleteSubtreeSpec ("ghost") sampleTreeC = .error .NodeNotFound :=
  ⟨rfl, rfl⟩

/-! ## Id bookkeeping for insertion (C5) -/

theorem insertNodeAt_eq_appendAt (parentId : String) (nn : NodeData) (t : NodeData) :
    insertNodeAt parentId nn t = appendAt parentId (fun _ _ => [nn]) t := by
  induction t using NodeData.inductionOn with
  | step i tx ch px py c sh cs d ih =>
    rw [insertNodeAt_mk, appendAt_mk]
    by_cases hi : i = parentId
    · rw [if_pos hi, if_pos hi]
    · rw [if_neg hi, if_neg hi]
      congr 1
      exact List.map_congr_left ih

theorem insertChildrenAt_eq_appendAt (parentId : String) (mkId : ℕ → String)
    (sh cs : Option String) (topics : List String) (t : NodeData) :
    insertChildrenAt parentId mkId sh cs topics t
      = appendAt parentId
          (fun px py => (topics.filter (fun s => jsTrim s != "")).enum.map
            (fun p => aiChildNode mkId sh cs px py p.1 p.2)) t := by
  induction t using NodeData.inductionOn with
  | step i tx ch px py c sh0 cs0 d ih =>
    rw [insertChildrenAt_mk, appendAt_mk]
    by_cases hi : i = parentId
    · rw [if_pos hi, if_pos hi]
    · rw [if_neg hi, if_neg hi]
      congr 1
      exact List.map_congr_left ih

theorem appendAt_not_mem (p : String) (F) (t : NodeData) :
    p ∉ allIds t → appendAt p F t = t := by
  induction t using NodeData.inductionOn with
  | step i tx ch px py c sh cs d ih =>
    intro h
    rw [allIds_mk'] at h
    have hi : i ≠ p := fun he => h (by rw [he]; exact List.mem_cons_self _ _)
    have hch : ∀ u ∈ ch, p ∉ allIds u := by
      intro u hu hmem
      exact h (List.mem_cons_of_mem _ ((mem_allIdsList p ch).mpr ⟨u, hu, hmem⟩))
    rw [appendAt_mk, if_neg hi]
    have hmap : ∀ u ∈ ch, appendAt p F u = u := fun u hu => ih u hu (hch u hu)
    rw [List.map_congr_left hmap]
    simp

theorem allIdsList_append (l1 l2 : List NodeData) :
    allIdsList (l1 ++ l2) = allIdsList l1 ++ allIdsList l2 := by
  induction l1 with
  | nil => rfl
  | cons u us ih =>
    rw [List.cons_append, allIdsList_cons, allIdsList_cons, ih, List.append_assoc]

/-- Specification of an insertion at a resolvable parent: the new tree's ids
are the old ids plus the batch's ids. -/
def AppendSpec (p : String) (F : Option ℚ → Option ℚ → List NodeData)
    (newIds : List String) (u : NodeData) : Prop :=
  (allIds u).Nodup → p ∈ allIds u →
    (allIds (appendAt p F u)).Perm (allIds u ++ newIds)

theorem appendAt_ids_list (p : String) (F) (newIds : List String) :
    ∀ (cs : List NodeData), (∀ u ∈ cs, AppendSpec p F newIds u) →
      (allIdsList cs).Nodup → p ∈ allIdsList cs →
      (allIdsList (cs.map (appendAt p F))).Perm (allIdsList cs ++ newIds) := by
  intro cs
  induction cs with
  | nil =>
    intro _ _ hmem
    rw [allIdsList_nil] at hmem
    cases hmem
  | cons u us ih =>
    intro ihm hnd hmem
    rw [allIdsList_cons] at hnd hmem
    obtain ⟨hndu, hndus, hdisj⟩ := List.nodup_append.mp hnd
    rw [List.map_cons, allIdsList_cons, allIdsList_cons]
    rcases List.mem_append.mp hmem with hmu | hmus
    · have hrest : ∀ v ∈ us, p ∉ allIds v := by
        intro v hv hmem'
        exact hdisj hmu ((mem_allIdsList p us).mpr ⟨v, hv, hmem'⟩)
      have hmapus : us.map (appendAt p F) = us := by
        have : ∀ v ∈ us, appendAt p F v = v :=
          fun v hv => appendAt_not_mem p F v (hrest v hv)
        rw [List.map_congr_left this]
        simp
      have : allIdsList (us.map (appendAt p F)) = allIdsList us := by rw [hmapus]
      rw [this]
      exact ((ihm u (by simp) hndu hmu).append_right _).trans (perm_rot _ _ _)
    · have hnotu : p ∉ allIds u := fun hin => hdisj hin hmus
      rw [appendAt_not_mem p F u hnotu]
      exact (List.Perm.append_left _
        (ih (fun v hv => ihm v (by simp [hv])) hndus hmus)).trans (perm_assoc _ _ _)

theorem appendAt_ids (p : String) (F) (newIds : List String)
    (hF : ∀ px py, allIdsList (F px py) = newIds) (t : NodeData) :
    AppendSpec p F newIds t := by
  induction t using NodeData.inductionOn with
  | step i tx ch px py c sh cs d ih =>
    intro hnd hp
    rw [allIds_mk'] at hnd hp
    by_cases hi : i = p
    · rw [appendAt_mk, if_pos hi, allIds_mk', allIds_mk', allIdsList_append, hF,
        List.cons_append]
    · rw [appendAt_mk, if_neg hi, allIds_mk', allIds_mk', List.cons_append]
      have hp' : p ∈ allIdsList ch := by
        rcases List.mem_cons.mp hp with h | h
        · exact absurd h.symm hi
        · exact h
      exact (appendAt_ids_list p F newIds ch ih (List.nodup_cons.mp hnd).2 hp').cons i

theorem appendAt_nodup (p : String) (F) (newIds : List String)
    (hF : ∀ px py, allIdsList (F px py) = newIds) (t : NodeData)
    (hnd : (allIds t).Nodup) (hdisj : ∀ j ∈ newIds, j ∉ allIds t)
    (hnd2 : newIds.Nodup) : (allIds (appendAt p F t)).Nodup := by
  by_cases hp : p ∈ allIds t
  · have hperm := appendAt_ids p F newIds hF t hnd hp
    refine hperm.symm.nodup ?_
    rw [List.nodup_append]
    exact ⟨hnd, hnd2, fun a ha hb => (hdisj a hb) ha⟩
  · rw [appendAt_not_mem p F t hp]
    exact hnd

/-! ## Deletion only removes ids (C5) -/

/-- Specification of a successful `deleteNode`: the surviving ids are a
sub-multiset (in fact a sublist) of the original ids. -/
def DelSubSpec (target : String) (u : NodeData) : Prop :=
  ∀ u', deleteNode target u = some u' → (allIds u').Sublist (allIds u)

theorem deleteChildren_sublist_list (target : String) :
    ∀ (cs : List NodeData), (∀ u ∈ cs, DelSubSpec target u) →
      (allIdsList (deleteChildren target cs)).Sublist (allIdsList cs) := by
  intro cs
  induction cs with
  | nil =>
    intro _
    exact List.Sublist.refl _
  | cons u us ih =>
    intro ihm
    have ihus := ih (fun v hv => ihm v (by simp [hv]))
    rw [deleteChildren_cons]
    by_cases hb : (u.id != target) = true
    · rw [if_pos hb]
      cases hdu : deleteNode target u with
      | some v =>
        rw [allIdsList_cons, allIdsList_cons]
        exact List.Sublist.append (ihm u (by simp) v hdu) ihus
      | none =>
        rw [allIdsList_cons]
        exact ihus.trans (List.sublist_append_right _ _)
    · rw [if_neg hb, allIdsList_cons]
      exact ihus.trans (List.sublist_append_right _ _)

theorem deleteNode_sublist (target : String) (t : NodeData) : DelSubSpec target t := by
  induction t using NodeData.inductionOn with
  | step i tx ch px py c sh cs d ih =>
    intro u' hdel
    rw [deleteNode] at hdel
    by_cases hi : i = target
    · rw [if_pos hi] at hdel
      cases hdel
    · rw [if_neg hi] at hdel
      injection hdel with h
      rw [← h, allIds_mk', allIds_mk']
      exact (deleteChildren_sublist_list target ch ih).cons₂ i

/-! ## Store invariant over operation sequences (C5) -/

theorem aiChildren_ids (mkId : ℕ → String) (sh cs : Option String)
    (px py : Option ℚ) :
    ∀ (ps : List (ℕ × String)),
      allIdsList (ps.map (fun p => aiChildNode mkId sh cs px py p.1 p.2))
        = ps.map (fun p => mkId p.1) := by
  intro ps
  induction ps with
  | nil => rfl
  | cons q qs ih =>
    rw [List.map_cons, allIdsList_cons, ih, List.map_cons]
    rfl

theorem enum_mkIds (mkId : ℕ → String) (l : List String) :
    l.enum.map (fun p => mkId p.1) = (List.range l.length).map mkId := by
  have h := List.enum_map_fst l
  calc l.enum.map (fun p => mkId p.1)
      = (l.enum.map Prod.fst).map mkId := by rw [List.map_map]; rfl
    _ = (List.range l.length).map mkId := by rw [h]

theorem applyOp_nodup (op : Op) (t : NodeData)
    (hnd : (allIds t).Nodup) (hv : validOp op t = true) :
    (allIds (applyOp op t)).Nodup := by
  cases op with
  | addManual p nid txt sh cs =>
    simp only [validOp, Bool.and_eq_true, bne_iff_ne, decide_eq_true_eq] at hv
    obtain ⟨htxt, hnid⟩ := hv
    show (allIds (handleAddManualNode p nid txt sh cs t)).Nodup
    rw [handleAddManualNode, if_neg htxt]
    cases hfind : findNodeById p [t] with
    | none => exact hnd
    | some parent =>
      show (allIds (insertNodeAt p
        (.mk nid (jsTrim txt) [] parent.x (parent.y.map (· + VERTICAL)) false sh cs none)
        t)).Nodup
      rw [insertNodeAt_eq_appendAt]
      exact appendAt_nodup p
        (fun _ _ => [.mk nid (jsTrim txt) [] parent.x
          (parent.y.map (· + VERTICAL)) false sh cs none])
        [nid] (fun px py => rfl) t hnd
        (by intro j hj; rw [List.mem_singleton] at hj; rw [hj]; exact hnid)
        (List.nodup_singleton _)
  | addAI p mkId sh cs topics =>
    simp only [validOp, Bool.and_eq_true, decide_eq_true_eq, List.all_eq_true] at hv
    obtain ⟨hnd2, hfresh⟩ := hv
    show (allIds (handleGenerateAINodes p mkId sh cs topics t)).Nodup
    rw [handleGenerateAINodes]
    cases hfind : findNodeById p [t] with
    | none => exact hnd
    | some parent =>
      show (allIds (insertChildrenAt p mkId sh cs topics t)).Nodup
      rw [insertChildrenAt_eq_appendAt]
      refine appendAt_nodup p _
        ((List.range (topics.filter (fun s => jsTrim s != "")).length).map mkId)
        ?_ t hnd ?_ hnd2
      · intro px py
        rw [aiChildren_ids, enum_mkIds]
      · intro j hj
        have := hfresh j hj
        simpa using this
  | del target =>
    simp only [validOp, bne_iff_ne] at hv
    show (allIds ((handleDelete target t).getD t)).Nodup
    rw [handleDelete, if_neg hv]
    cases hdel : deleteNode target t with
    | none => exact hnd
    | some t' =>
      exact ((deleteNode_sublist target t) t' hdel).nodup hnd

theorem applyOps_nodup : ∀ (ops : List Op) (t : NodeData),
    (allIds t).Nodup → validOps ops t = true →
    (allIds (applyOps ops t)).Nodup := by
  intro ops
  induction ops with
  | nil =>
    intro t h _
    exact h
  | cons op ops ih =>
    intro t h hv
    rw [validOps] at hv
    simp only [Bool.and_eq_true] at hv
    obtain ⟨h1, h2⟩ := hv
    exact ih _ (applyOp_nodup op t h h1) h2

theorem mem_children_sizeOf {u n : NodeData} (h : u ∈ n.children) :
    sizeOf u < sizeOf n := by
  cases n with
  | mk i t ch px py c sh cs d =>
    simp only [NodeData.children_mk] at h
    have h1 := List.sizeOf_lt_of_mem h
    simp
    omega

theorem StrictDesc.sizeOf_lt {u n : NodeData} (h : StrictDesc u n) :
    sizeOf u < sizeOf n := by
  induction h with
  | head u n hm => exact mem_children_sizeOf hm
  | tail u v n hm _ ih => exact lt_trans (mem_children_sizeOf hm) ih

/-- In this tree model no node is its own strict descendant: any descendant
has strictly smaller size. -/
theorem noCycles (n : NodeData) : ¬ StrictDesc n n :=
  fun h => lt_irrefl _ h.sizeOf_lt

/-- C5: after any sequence of valid manual-insert / AI-batch-insert / delete
operations on a freshly created root, all node ids are globally unique, and
the resulting tree is acyclic — neither the result nor any node reachable
inside it is its own strict descendant. -/
theorem validOps_invariant (ops : List Op) (topic : String) (winW : ℚ)
    (h : validOps ops (rootNode topic winW) = true) :
    (allIds (applyOps ops (rootNode topic winW))).Nodup
    ∧ (¬ StrictDesc (applyOps ops (rootNode topic winW))
        (applyOps ops (rootNode topic winW)))
    ∧ ∀ s, StrictDesc s (applyOps ops (rootNode topic winW)) → ¬ StrictDesc s s := by
  refine ⟨?_, noCycles _, fun s _ => noCycles s⟩
  have hroot : allIds (rootNode topic winW) = ["root"] := rfl
  exact applyOps_nodup ops _ (by rw [hroot]; exact List.nodup_singleton _) h

/-- A concrete valid operation sequence: a manual child under the root, an AI
batch (with one whitespace label filtered out) under that child, then a
delete of one generated node. -/
def sampleOps : List Op :=
  [.addManual ("root") "n1" "Basics" none none,
   .addAI ("n1") (fun k => String.append ("ai-") (toString k)) none none
     ["OOP", " ", "Libraries"],
   .del ("ai-1")]

/-- Witness for C5: the sample sequence is valid on a fresh root and the
resulting ids are unique. -/
theorem validOps_invariant_witness :
    validOps sampleOps (rootNode ("Python") 800) = true
    ∧ (allIds (applyOps sampleOps (rootNode ("Python") 800))).Nodup :=
  ⟨by decide, (validOps_invariant sampleOps ("Python") 800 (by decide)).1⟩

end MindMap
